import Mathlib

/-!
Verification of the Entropy file-analysis module (`src/EntropyModule.cpp`).

The module's `run` function reads a file in chunks through a `TskFile *`
handle, accumulates a 256-bin byte histogram together with a running total
byte count, converts the histogram to a Shannon entropy value (bits per
byte), posts that value to the blackboard as a single attribute, and
returns a status.  We embed `run` shallowly: the file handle becomes a
model recording the sequence of results its `read` method will produce and
the behaviour of its `addGenInfoAttribute` method; `run` becomes a pure
function from that model to the returned status, the list of attributes
actually posted, the log messages issued, and the trace of file-handle
method calls.  IEEE-754 doubles are modelled as real numbers; the one
place this needs care is division by a zero `totalBytes`, where IEEE
produces NaN and the real model produces 0 — both fail the `p > 0.0`
guard in the reducer, so the two models take the same branch.
-/

namespace EntropyModule

/-- `TskModule::Status`: the status enumeration of the host framework. -/
inductive Status where
  | OK : Status
  | FAIL : Status
  | STOP : Status
deriving DecidableEq, Repr

/-- `static const uint32_t FILE_BUFFER_SIZE = 8193;` (line 36 of the source). -/
def FILE_BUFFER_SIZE : Nat := 8193

/-- One result of a call to `pFile->read(buffer, FILE_BUFFER_SIZE)`.
`chunk bs` means the call returned `bs.length` and placed the bytes `bs`
(each in `0..255`) at the start of the buffer; `negRet n` means the call
returned the negative value `-(n+1)` without providing bytes; the two
throw constructors mean the call raised a `TskException` resp. a
`std::exception` carrying the given message. -/
inductive ReadResult where
  | chunk : List Nat → ReadResult
  | negRet : Nat → ReadResult
  | tskThrow : String → ReadResult
  | stdThrow : String → ReadResult
deriving DecidableEq, Repr

/-- Behaviour of `pFile->addGenInfoAttribute(...)`: it either succeeds or
throws a `TskException` resp. a `std::exception` with the given message. -/
inductive PostBehavior where
  | succeeds : PostBehavior
  | tskThrow : String → PostBehavior
  | stdThrow : String → PostBehavior
deriving DecidableEq, Repr

/-- Model of the `TskFile` handle: its numeric id, the successive results
its `read` method returns (after the list is exhausted, `read` returns 0,
i.e. EOF), and how its `addGenInfoAttribute` method behaves. -/
structure TskFileModel where
  id : Int
  reads : List ReadResult
  post : PostBehavior

/-- A method call performed on the file handle, for the call trace.
`read n` records that `read` was invoked requesting `n` bytes. -/
inductive MethodCall where
  | read : Nat → MethodCall
  | getId : MethodCall
  | addGenInfoAttribute : MethodCall
deriving DecidableEq, Repr

/-- A message sent to `LOGERROR`.  `nullFilePointer` is the fixed message
of line 65; `errorProcessing id msg` is the message of lines 103/110,
which embeds the file id and the exception's `what()` text. -/
inductive LogMsg where
  | nullFilePointer : LogMsg
  | errorProcessing : Int → String → LogMsg
deriving DecidableEq, Repr

/-- `TskBlackboardAttribute(TSK_ENTROPY, "EntropyModule", "", entropy)`:
the (kind, source, context, value) tuple posted to the blackboard.  The
double value is modelled as a real number. -/
structure TskBlackboardAttribute where
  attrType : String
  moduleName : String
  context : String
  value : ℝ

/-- Reading `buffer[i]` through the `char` buffer on a platform with
signed `char`: a stored byte `b ∈ 0..255` is seen as the signed value
`b` if `b < 128` and `b - 256` otherwise. -/
def charOfByte (b : Nat) : Int := if b < 128 then (b : Int) else (b : Int) - 256

/-- The implicit conversion in `byte = buffer[i]` where `byte` has type
`unsigned __int8`: reduction of the signed value modulo 256. -/
def toUInt8 (c : Int) : Nat := (c % 256).toNat

/-- `byteCounts[idx]++`: bump one histogram counter. -/
def bumpCount (counts : Nat → Nat) (idx : Nat) : Nat → Nat :=
  fun j => if j = idx then counts j + 1 else counts j

/-- The inner loop of lines 83-86: for each byte of the chunk, convert it
through the signed `char` buffer to `unsigned __int8` and bump the
corresponding histogram counter. -/
def accumulate (bs : List Nat) (counts : Nat → Nat) : Nat → Nat :=
  bs.foldl (fun cs b => bumpCount cs (toUInt8 (charOfByte b))) counts

/-- The do-while read loop of lines 79-88.  Arguments: remaining read
results, current histogram, current `totalBytes`, call trace so far.
Returns the final call trace and either the final (histogram, totalBytes)
pair or the exception that escaped (`true` marks a `TskException`).
Each iteration calls `read` requesting `FILE_BUFFER_SIZE` bytes; a chunk
is accumulated and its length added to `totalBytes`, and the loop repeats
exactly when the returned count is positive. -/
def runLoop : List ReadResult → (Nat → Nat) → Int → List MethodCall →
    List MethodCall × Except (Bool × String) ((Nat → Nat) × Int)
  | [], counts, total, calls =>
      (calls ++ [MethodCall.read FILE_BUFFER_SIZE], Except.ok (counts, total))
  | ReadResult.chunk bs :: rest, counts, total, calls =>
      if 0 < bs.length then
        runLoop rest (accumulate bs counts) (total + (bs.length : Int))
          (calls ++ [MethodCall.read FILE_BUFFER_SIZE])
      else
        (calls ++ [MethodCall.read FILE_BUFFER_SIZE],
         Except.ok (accumulate bs counts, total + (bs.length : Int)))
  | ReadResult.negRet n :: _, counts, total, calls =>
      (calls ++ [MethodCall.read FILE_BUFFER_SIZE],
       Except.ok (counts, total - ((n : Int) + 1)))
  | ReadResult.tskThrow m :: _, _, _, calls =>
      (calls ++ [MethodCall.read FILE_BUFFER_SIZE], Except.error (true, m))
  | ReadResult.stdThrow m :: _, _, _, calls =>
      (calls ++ [MethodCall.read FILE_BUFFER_SIZE], Except.error (false, m))

/-- The reducer of lines 90-95: for each `i` in `0..255`, let
`p = byteCounts[i] / totalBytes` (double division, modelled over ℝ where
division by zero yields 0; IEEE yields NaN there, and both fail the
`p > 0.0` test), and when `p > 0` subtract `p * (log p / log 2)` from the
accumulator. -/
noncomputable def computeEntropy (counts : Nat → Nat) (totalBytes : Int) : ℝ :=
  ∑ i ∈ Finset.range 256,
    (if 0 < ((counts i : ℝ) / (totalBytes : ℝ)) then
      -(((counts i : ℝ) / (totalBytes : ℝ)) *
        (Real.log ((counts i : ℝ) / (totalBytes : ℝ)) / Real.log 2))
    else 0)

/-- The attribute expression of line 98:
`TskBlackboardAttribute(TSK_ENTROPY, "EntropyModule", "", entropy)`. -/
def entropyAttribute (value : ℝ) : TskBlackboardAttribute :=
  { attrType := "TSK_ENTROPY", moduleName := "EntropyModule", context := "",
    value := value }

/-- The observable outcome of one `run` call: the returned status, the
attributes actually posted to the blackboard, the messages logged, and
the trace of method calls performed on the file handle. -/
structure RunResult where
  status : Status
  posted : List TskBlackboardAttribute
  log : List LogMsg
  calls : List MethodCall

/-- The module's `run` entry point (lines 61-115).  A null handle is
logged and rejected without touching the file.  Otherwise the read loop
runs; an exception from `read` or from `addGenInfoAttribute` is caught by
the handlers of lines 100-113, which call `getId`, log one message with
the file id and the exception text, and return FAIL.  On success exactly
one attribute carrying the computed entropy is posted and OK is
returned. -/
noncomputable def run : Option TskFileModel → RunResult
  | none =>
      { status := Status.FAIL, posted := [],
        log := [LogMsg.nullFilePointer], calls := [] }
  | some f =>
      match runLoop f.reads (fun _ => 0) 0 [] with
      | (calls, Except.error em) =>
          { status := Status.FAIL, posted := [],
            log := [LogMsg.errorProcessing f.id em.2],
            calls := calls ++ [MethodCall.getId] }
      | (calls, Except.ok (counts, totalBytes)) =>
          let attr : TskBlackboardAttribute :=
            entropyAttribute (computeEntropy counts totalBytes)
          match f.post with
          | PostBehavior.succeeds =>
              { status := Status.OK, posted := [attr], log := [],
                calls := calls ++ [MethodCall.addGenInfoAttribute] }
          | PostBehavior.tskThrow m =>
              { status := Status.FAIL, posted := [],
                log := [LogMsg.errorProcessing f.id m],
                calls := calls ++ [MethodCall.addGenInfoAttribute, MethodCall.getId] }
          | PostBehavior.stdThrow m =>
              { status := Status.FAIL, posted := [],
                log := [LogMsg.errorProcessing f.id m],
                calls := calls ++ [MethodCall.addGenInfoAttribute, MethodCall.getId] }

/-- The per-chunk state evolution of the accumulator (lines 83-87),
folded over a list of chunks starting from the zero histogram and a zero
byte count: the state "after each chunk has been accumulated". -/
def accumState (chunks : List (List Nat)) : (Nat → Nat) × Int :=
  chunks.foldl (fun st bs => (accumulate bs st.1, st.2 + (bs.length : Int)))
    ((fun _ => 0), 0)

/-- The `unsigned __int8` conversion undoes the signed-`char` reading:
for a stored byte `b ∈ 0..255`, the histogram index is `b` itself. -/
theorem toUInt8_charOfByte (b : Nat) (hb : b < 256) : toUInt8 (charOfByte b) = b := by
  simp only [toUInt8, charOfByte]
  split <;> omega

/-- Pointwise characterisation of the accumulator: processing a chunk of
bytes in `0..255` adds each byte's multiplicity to its own counter. -/
theorem accumulate_apply : ∀ (bs : List Nat) (counts : Nat → Nat) (j : Nat),
    (∀ b ∈ bs, b < 256) → accumulate bs counts j = counts j + bs.count j
  | [], counts, j, _ => by simp [accumulate]
  | b :: bs, counts, j, h => by
    have hb : b < 256 := h b (List.mem_cons_self b bs)
    have ih := accumulate_apply bs (bumpCount counts (toUInt8 (charOfByte b))) j
      (fun x hx => h x (List.mem_cons_of_mem _ hx))
    simp only [accumulate, List.foldl_cons] at ih ⊢
    rw [ih, toUInt8_charOfByte b hb, List.count_cons, bumpCount]
    by_cases hj : j = b <;> simp [hj] <;> omega

/-- The 256 byte counters of a list of bytes in `0..255` sum to its length. -/
theorem sum_range_count : ∀ (bs : List Nat), (∀ b ∈ bs, b < 256) →
    ∑ i ∈ Finset.range 256, bs.count i = bs.length
  | [], _ => by simp
  | b :: bs, h => by
    have hb : b < 256 := h b (List.mem_cons_self b bs)
    have ih := sum_range_count bs (fun x hx => h x (List.mem_cons_of_mem _ hx))
    have hsplit : ∀ i ∈ Finset.range 256,
        (b :: bs).count i = bs.count i + if i = b then 1 else 0 := by
      intro i _
      rw [List.count_cons]
      by_cases hib : i = b <;> simp [hib] <;> omega
    rw [Finset.sum_congr rfl hsplit, Finset.sum_add_distrib, ih,
      Finset.sum_ite_eq' (Finset.range 256) b (fun _ => 1)]
    simp [Finset.mem_range.mpr hb]

/-- Processing the concatenation of two chunk lists is processing them in
sequence. -/
theorem accumulate_append (bs cs : List Nat) (counts : Nat → Nat) :
    accumulate (bs ++ cs) counts = accumulate cs (accumulate bs counts) := by
  simp [accumulate, List.foldl_append]

/-- Running the read loop on a list of non-empty chunks followed by a
tail behaves like accumulating the flattened chunks and then running the
loop on the tail, with one `read` call per chunk recorded. -/
theorem runLoop_append_chunks : ∀ (chunks : List (List Nat)) (tail : List ReadResult)
    (counts : Nat → Nat) (total : Int) (calls : List MethodCall),
    (∀ bs ∈ chunks, bs ≠ []) →
    runLoop (chunks.map ReadResult.chunk ++ tail) counts total calls
      = runLoop tail (accumulate chunks.flatten counts)
          (total + (chunks.flatten.length : Int))
          (calls ++ List.replicate chunks.length (MethodCall.read FILE_BUFFER_SIZE))
  | [], tail, counts, total, calls, _ => by
      simp [accumulate]
  | bs :: rest, tail, counts, total, calls, h => by
    have hbs : 0 < bs.length :=
      List.length_pos.mpr (h bs (List.mem_cons_self bs rest))
    have ih := runLoop_append_chunks rest tail (accumulate bs counts)
      (total + (bs.length : Int)) (calls ++ [MethodCall.read FILE_BUFFER_SIZE])
      (fun x hx => h x (List.mem_cons_of_mem _ hx))
    simp only [List.map_cons, List.cons_append, List.append_eq, runLoop, hbs, if_pos] at ih ⊢
    rw [ih, List.flatten_cons, accumulate_append]
    have h1 : total + ((bs ++ rest.flatten).length : Int)
        = total + (bs.length : Int) + (rest.flatten.length : Int) := by
      push_cast [List.length_append]; ring
    have h2 : calls ++ List.replicate (rest.length + 1) (MethodCall.read FILE_BUFFER_SIZE)
        = calls ++ [MethodCall.read FILE_BUFFER_SIZE]
            ++ List.replicate rest.length (MethodCall.read FILE_BUFFER_SIZE) := by
      rw [List.replicate_succ]; simp
    rw [h1, List.length_cons, h2]

/-- Running the read loop to completion on a list of non-empty chunks:
the final histogram is the accumulation of the flattened bytes, the final
`totalBytes` is their number, and `chunks.length + 1` reads occur (the
last one returns 0 at EOF). -/
theorem runLoop_chunks (chunks : List (List Nat)) (counts : Nat → Nat) (total : Int)
    (calls : List MethodCall) (h : ∀ bs ∈ chunks, bs ≠ []) :
    runLoop (chunks.map ReadResult.chunk) counts total calls
      = (calls ++ List.replicate (chunks.length + 1) (MethodCall.read FILE_BUFFER_SIZE),
         Except.ok (accumulate chunks.flatten counts,
           total + (chunks.flatten.length : Int))) := by
  have := runLoop_append_chunks chunks [] counts total calls h
  rw [List.append_nil] at this
  rw [this, runLoop, List.replicate_succ', List.append_assoc]

/-- The per-chunk fold realises the accumulation of the flattened bytes. -/
theorem accumFold_eq : ∀ (chunks : List (List Nat)) (c : Nat → Nat) (t : Int),
    chunks.foldl (fun st bs => (accumulate bs st.1, st.2 + (bs.length : Int))) (c, t)
      = (accumulate chunks.flatten c, t + (chunks.flatten.length : Int))
  | [], c, t => by simp [accumulate]
  | bs :: rest, c, t => by
    rw [List.foldl_cons, accumFold_eq rest (accumulate bs c) (t + (bs.length : Int)),
      List.flatten_cons, accumulate_append]
    have h1 : t + ((bs ++ rest.flatten).length : Int)
        = t + (bs.length : Int) + (rest.flatten.length : Int) := by
      push_cast [List.length_append]; ring
    rw [h1]

/-- `accumState` in closed form. -/
theorem accumState_eq (chunks : List (List Nat)) :
    accumState chunks
      = (accumulate chunks.flatten (fun _ => 0), (chunks.flatten.length : Int)) := by
  rw [accumState, accumFold_eq]
  simp

/-- The reducer on the all-zero histogram yields 0 whatever `totalBytes`
is: every `p` is `0/totalBytes`, failing the `p > 0` guard (in IEEE
arithmetic `0/0` is NaN, which fails the same guard). -/
theorem computeEntropy_zero (t : Int) : computeEntropy (fun _ => 0) t = 0 := by
  simp [computeEntropy]

/-- The reducer on a one-bin histogram (a constant file of `L ≥ 1` bytes)
yields exactly 0: the single ratio is `1` and `log 1 = 0`. -/
theorem computeEntropy_single (c L : Nat) (hL : 1 ≤ L) :
    computeEntropy (fun j => if j = c then L else 0) (L : Int) = 0 := by
  rw [computeEntropy]
  apply Finset.sum_eq_zero
  intro i _
  by_cases hic : i = c
  · subst hic
    have hL0 : ((L : Nat) : ℝ) ≠ 0 := by
      exact_mod_cast Nat.one_le_iff_ne_zero.mp hL
    simp [div_self hL0]
  · simp [hic]

/-- Every `read` call recorded in the loop's trace either was already in the
incoming trace or requests exactly `FILE_BUFFER_SIZE` bytes. -/
theorem runLoop_read_calls : ∀ (reads : List ReadResult) (counts : Nat → Nat) (total : Int)
    (calls : List MethodCall) (r : Nat),
    MethodCall.read r ∈ (runLoop reads counts total calls).1 →
    MethodCall.read r ∈ calls ∨ r = FILE_BUFFER_SIZE
  | [], _, _, calls, r, h => by
    simp only [runLoop, List.mem_append, List.mem_singleton] at h
    rcases h with h | h
    · exact Or.inl h
    · exact Or.inr (by injection h)
  | ReadResult.chunk bs :: rest, counts, total, calls, r, h => by
    by_cases hbs : 0 < bs.length
    · simp only [runLoop] at h
      rw [if_pos hbs] at h
      rcases runLoop_read_calls rest (accumulate bs counts) (total + (bs.length : Int))
        (calls ++ [MethodCall.read FILE_BUFFER_SIZE]) r h with h' | h'
      · simp only [List.mem_append, List.mem_singleton] at h'
        rcases h' with h'' | h''
        · exact Or.inl h''
        · exact Or.inr (by injection h'')
      · exact Or.inr h'
    · simp only [runLoop] at h
      rw [if_neg hbs] at h
      simp only [List.mem_append, List.mem_singleton] at h
      rcases h with h | h
      · exact Or.inl h
      · exact Or.inr (by injection h)
  | ReadResult.negRet n :: _, _, _, calls, r, h => by
    simp only [runLoop, List.mem_append, List.mem_singleton] at h
    rcases h with h | h
    · exact Or.inl h
    · exact Or.inr (by injection h)
  | ReadResult.tskThrow m :: _, _, _, calls, r, h => by
    simp only [runLoop, List.mem_append, List.mem_singleton] at h
    rcases h with h | h
    · exact Or.inl h
    · exact Or.inr (by injection h)
  | ReadResult.stdThrow m :: _, _, _, calls, r, h => by
    simp only [runLoop, List.mem_append, List.mem_singleton] at h
    rcases h with h | h
    · exact Or.inl h
    · exact Or.inr (by injection h)

/-- C6: `run` on a null file handle returns FAIL, logs exactly the one
null-pointer message, posts no attribute, and performs no method call on
the file handle. -/
theorem run_null_handle :
    run none
      = { status := Status.FAIL, posted := [], log := [LogMsg.nullFilePointer],
          calls := [] } := rfl

/-- C1: on a file whose reads immediately return zero (`totalBytes = 0`
at EOF), `run` takes option (b) of the spec's disjunction: it posts
exactly one attribute with entropy value 0.0 and returns OK.  (Every
ratio is `0/0`; both the real model's `0` and IEEE's NaN fail the
`p > 0.0` guard, so the accumulator stays 0.0.) -/
theorem run_empty_file (f : TskFileModel) (hpost : f.post = PostBehavior.succeeds)
    (hreads : f.reads = [] ∨ ∃ rest, f.reads = ReadResult.chunk [] :: rest) :
    run (some f)
      = { status := Status.OK, posted := [entropyAttribute 0], log := [],
          calls := [MethodCall.read FILE_BUFFER_SIZE, MethodCall.addGenInfoAttribute] } := by
  obtain ⟨id, reads, post⟩ := f
  simp only at hpost hreads
  subst hpost
  rcases hreads with h | ⟨rest, h⟩ <;> subst h <;>
    simp [run, runLoop, accumulate, computeEntropy_zero]

/-- Closed witness for C1, at a file with no read results at all. -/
theorem run_empty_file_witness :
    (({ id := 0, reads := [], post := PostBehavior.succeeds } : TskFileModel).post
        = PostBehavior.succeeds) ∧
    (({ id := 0, reads := [], post := PostBehavior.succeeds } : TskFileModel).reads = []
      ∨ ∃ rest, ({ id := 0, reads := [], post := PostBehavior.succeeds } : TskFileModel).reads
          = ReadResult.chunk [] :: rest) ∧
    run (some ({ id := 0, reads := [], post := PostBehavior.succeeds } : TskFileModel))
      = { status := Status.OK, posted := [entropyAttribute 0], log := [],
          calls := [MethodCall.read FILE_BUFFER_SIZE, MethodCall.addGenInfoAttribute] } :=
  ⟨rfl, Or.inl rfl, run_empty_file _ rfl (Or.inl rfl)⟩

/-- C4: a byte `b ∈ 0..255` read through the (signed) `char` buffer and
assigned to the `unsigned __int8` index variable yields the histogram
index `b` itself, always in `0..255`, even though bytes `128..255` pass
through a negative signed value; accordingly the accumulator bumps
exactly counter `b`. -/
theorem histogram_index_unsigned (b : Nat) (hb : b < 256) :
    toUInt8 (charOfByte b) = b ∧ toUInt8 (charOfByte b) < 256 ∧
    (128 ≤ b → charOfByte b < 0) ∧
    ∀ counts : Nat → Nat, accumulate [b] counts = bumpCount counts b := by
  refine ⟨toUInt8_charOfByte b hb, ?_, ?_, ?_⟩
  · rw [toUInt8_charOfByte b hb]; exact hb
  · intro h128
    simp only [charOfByte]
    split <;> omega
  · intro counts
    simp [accumulate, toUInt8_charOfByte b hb]

/-- Closed witness for C4, at the byte 0xFF (where sign extension would
be most damaging). -/
theorem histogram_index_unsigned_witness :
    (255 : Nat) < 256 ∧
    (toUInt8 (charOfByte 255) = 255 ∧ toUInt8 (charOfByte 255) < 256 ∧
      (128 ≤ 255 → charOfByte 255 < 0) ∧
      ∀ counts : Nat → Nat, accumulate [255] counts = bumpCount counts 255) :=
  ⟨by decide, histogram_index_unsigned 255 (by decide)⟩

/-- C2 counterexample: the buffer constant of line 36 is 8193, not 8192,
and the single read call of a run on an immediately-EOF file requests
8193 bytes, which is not at most 8192. -/
theorem buffer_size_not_8192 :
    FILE_BUFFER_SIZE = 8193 ∧ ¬ FILE_BUFFER_SIZE ≤ 8192 ∧
    (run (some { id := 0, reads := [], post := PostBehavior.succeeds })).calls
      = [MethodCall.read 8193, MethodCall.addGenInfoAttribute] := by
  refine ⟨rfl, by decide, ?_⟩
  simp [run, runLoop, FILE_BUFFER_SIZE]

/-- C2 amended: the read buffer has the fixed capacity
`FILE_BUFFER_SIZE = 8193` bytes, and every read call of every run
requests exactly 8193 bytes, independent of the file. -/
theorem read_requests_fixed_size (f : TskFileModel) (r : Nat)
    (hr : MethodCall.read r ∈ (run (some f)).calls) :
    r = FILE_BUFFER_SIZE ∧ FILE_BUFFER_SIZE = 8193 := by
  refine ⟨?_, rfl⟩
  have hloop : MethodCall.read r ∈ (runLoop f.reads (fun _ => 0) 0 []).1 →
      r = FILE_BUFFER_SIZE := by
    intro hc
    rcases runLoop_read_calls f.reads (fun _ => 0) 0 [] r hc with h | h
    · simp at h
    · exact h
  rcases hE : runLoop f.reads (fun _ => 0) 0 [] with ⟨loopCalls, out⟩
  simp only [hE] at hloop
  rcases out with em | ok
  · simp only [run, hE] at hr
    simp only [List.mem_append, List.mem_singleton] at hr
    rcases hr with h | h
    · exact hloop h
    · cases h
  · rcases ok with ⟨counts, totalBytes⟩
    rcases hpost : f.post with _ | m | m <;>
      simp only [run, hE, hpost, List.mem_append, List.mem_singleton,
        List.mem_cons, List.not_mem_nil, or_false] at hr <;>
      rcases hr with h | h
    · exact hloop h
    · cases h
    · exact hloop h
    · rcases h with h | h <;> cases h
    · exact hloop h
    · rcases h with h | h <;> cases h

/-- Closed witness for C2's amended claim, at the read call of a run on
an immediately-EOF file. -/
theorem read_requests_fixed_size_witness :
    MethodCall.read 8193
        ∈ (run (some { id := 0, reads := [], post := PostBehavior.succeeds })).calls ∧
    (8193 = FILE_BUFFER_SIZE ∧ FILE_BUFFER_SIZE = 8193) :=
  ⟨by simp [run, runLoop, FILE_BUFFER_SIZE],
   read_requests_fixed_size { id := 0, reads := [], post := PostBehavior.succeeds } 8193
     (by simp [run, runLoop, FILE_BUFFER_SIZE])⟩

/-- C3 counterexample: a run whose only read returns the negative value
-1 logs nothing and returns OK — the code does not treat the negative
return as an error (the loop merely exits, having added -1 to
`totalBytes`). -/
theorem negative_read_returns_ok :
    (run (some { id := 7, reads := [ReadResult.negRet 0], post := PostBehavior.succeeds })).status
        = Status.OK ∧
    (run (some { id := 7, reads := [ReadResult.negRet 0], post := PostBehavior.succeeds })).log
        = [] ∧
    (run (some { id := 7, reads := [ReadResult.negRet 0], post := PostBehavior.succeeds })).status
        ≠ Status.FAIL := by
  refine ⟨?_, ?_, ?_⟩ <;> simp [run, runLoop]

/-- C3 amended: when a read call returns a negative value (after any
number of non-empty chunks), the loop exits with the negative value
added to `totalBytes`; nothing is logged, the reducer still runs, one
attribute is posted and the run returns OK (when posting succeeds). -/
theorem negative_read_no_error (id : Int) (pre : List (List Nat)) (n : Nat)
    (rest : List ReadResult) (hpre : ∀ bs ∈ pre, bs ≠ []) :
    run (some { id := id,
                reads := pre.map ReadResult.chunk ++ ReadResult.negRet n :: rest,
                post := PostBehavior.succeeds })
      = { status := Status.OK,
          posted := [entropyAttribute (computeEntropy (accumulate pre.flatten (fun _ => 0))
            ((pre.flatten.length : Int) - ((n : Int) + 1)))],
          log := [],
          calls := (List.replicate pre.length (MethodCall.read FILE_BUFFER_SIZE)
            ++ [MethodCall.read FILE_BUFFER_SIZE]) ++ [MethodCall.addGenInfoAttribute] } := by
  have hL := runLoop_append_chunks pre (ReadResult.negRet n :: rest) (fun _ => 0) 0 [] hpre
  simp only [runLoop, List.nil_append, zero_add] at hL
  simp [run, hL]

/-- Closed witness for C3's amended claim: one 1-byte chunk, then a read
returning -1. -/
theorem negative_read_no_error_witness :
    (∀ bs ∈ [[65]], bs ≠ ([] : List Nat)) ∧
    run (some { id := 9,
                reads := [[65]].map ReadResult.chunk ++ ReadResult.negRet 0 :: [],
                post := PostBehavior.succeeds })
      = { status := Status.OK,
          posted := [entropyAttribute
            (computeEntropy (accumulate ([[65]] : List (List Nat)).flatten (fun _ => 0))
              ((([[65]] : List (List Nat)).flatten.length : Int) - ((0 : Int) + 1)))],
          log := [],
          calls := (List.replicate ([[65]] : List (List Nat)).length
              (MethodCall.read FILE_BUFFER_SIZE)
            ++ [MethodCall.read FILE_BUFFER_SIZE]) ++ [MethodCall.addGenInfoAttribute] } :=
  ⟨by simp, negative_read_no_error 9 [[65]] 0 [] (by simp)⟩

/-- The histogram after accumulating a list of chunks is the byte-count
function of the flattened bytes. -/
theorem accumState_counts (l : List (List Nat)) (hl : ∀ bs ∈ l, ∀ b ∈ bs, b < 256) :
    ∀ j, (accumState l).1 j = l.flatten.count j := by
  intro j
  rw [accumState_eq]
  have hfl : ∀ b ∈ l.flatten, b < 256 := by
    intro b hb
    rcases List.mem_flatten.mp hb with ⟨bs, hbs, hb'⟩
    exact hl bs hbs b hb'
  simp [accumulate_apply l.flatten (fun _ => 0) j hfl]

/-- C5: at every chunk boundary of a run (every prefix of the chunk
list), the 256 histogram counters sum to `totalBytes`, `totalBytes` is
the number of bytes read so far, and no counter ever exceeds its final
value (counters never decrease as further chunks arrive); moreover the
read loop's final state is exactly the accumulated state of the whole
chunk list. -/
theorem histogram_invariant (chunks : List (List Nat))
    (hbytes : ∀ bs ∈ chunks, ∀ b ∈ bs, b < 256) :
    (∀ pre suf, chunks = pre ++ suf →
      (((∑ i ∈ Finset.range 256, (accumState pre).1 i : Nat) : Int) = (accumState pre).2
        ∧ (accumState pre).2 = (pre.flatten.length : Int)
        ∧ ∀ j, (accumState pre).1 j ≤ (accumState chunks).1 j))
    ∧ ((∀ bs ∈ chunks, bs ≠ []) →
        (runLoop (chunks.map ReadResult.chunk) (fun _ => 0) 0 []).2
          = Except.ok (accumState chunks)) := by
  constructor
  · intro pre suf hps
    have hpre_bytes : ∀ bs ∈ pre, ∀ b ∈ bs, b < 256 := by
      intro bs hbs
      exact hbytes bs (hps ▸ List.mem_append_left suf hbs)
    have hflat_bytes : ∀ b ∈ pre.flatten, b < 256 := by
      intro b hb
      rcases List.mem_flatten.mp hb with ⟨bs, hbs, hb'⟩
      exact hpre_bytes bs hbs b hb'
    refine ⟨?_, ?_, ?_⟩
    · have h2 : (∑ i ∈ Finset.range 256, (accumState pre).1 i) = pre.flatten.length := by
        rw [Finset.sum_congr rfl (fun i _ => accumState_counts pre hpre_bytes i)]
        exact sum_range_count pre.flatten hflat_bytes
      rw [h2, accumState_eq]
    · rw [accumState_eq]
    · intro j
      rw [accumState_counts pre hpre_bytes j, accumState_counts chunks hbytes j,
        hps, List.flatten_append, List.count_append]
      omega
  · intro hne
    rw [runLoop_chunks chunks (fun _ => 0) 0 [] hne, accumState_eq]
    simp

/-- Closed witness for C5, at the chunk list [[0, 255], [7]]. -/
theorem histogram_invariant_witness :
    (∀ bs ∈ [[0, 255], [7]], ∀ b ∈ bs, b < 256) ∧
    ((∀ pre suf, ([[0, 255], [7]] : List (List Nat)) = pre ++ suf →
      (((∑ i ∈ Finset.range 256, (accumState pre).1 i : Nat) : Int) = (accumState pre).2
        ∧ (accumState pre).2 = (pre.flatten.length : Int)
        ∧ ∀ j, (accumState pre).1 j ≤ (accumState [[0, 255], [7]]).1 j))
    ∧ ((∀ bs ∈ ([[0, 255], [7]] : List (List Nat)), bs ≠ []) →
        (runLoop (([[0, 255], [7]] : List (List Nat)).map ReadResult.chunk)
            (fun _ => 0) 0 []).2
          = Except.ok (accumState [[0, 255], [7]]))) :=
  ⟨by decide, histogram_invariant [[0, 255], [7]] (by decide)⟩

/-- C7: on a file made of copies of a single byte value `c` (split into
any non-empty chunks), the computed entropy is exactly 0: one attribute
with value 0 is posted and the run returns OK. -/
theorem constant_file_entropy_zero (id : Int) (c : Nat) (chunks : List (List Nat))
    (hc : c < 256) (hne : chunks ≠ [])
    (hchunks : ∀ bs ∈ chunks, bs ≠ [] ∧ ∀ b ∈ bs, b = c) :
    run (some { id := id, reads := chunks.map ReadResult.chunk,
                post := PostBehavior.succeeds })
      = { status := Status.OK, posted := [entropyAttribute 0], log := [],
          calls := List.replicate (chunks.length + 1) (MethodCall.read FILE_BUFFER_SIZE)
            ++ [MethodCall.addGenInfoAttribute] } := by
  have hne' : ∀ bs ∈ chunks, bs ≠ [] := fun bs hbs => (hchunks bs hbs).1
  have hall : ∀ b ∈ chunks.flatten, b = c := by
    intro b hb
    rcases List.mem_flatten.mp hb with ⟨bs, hbs, hb'⟩
    exact (hchunks bs hbs).2 b hb'
  have hbytes : ∀ b ∈ chunks.flatten, b < 256 := fun b hb => (hall b hb) ▸ hc
  have hLpos : 1 ≤ chunks.flatten.length := by
    rcases chunks with _ | ⟨bs, rest⟩
    · exact absurd rfl hne
    · have hbs : bs ≠ [] := hne' bs (List.mem_cons_self bs rest)
      rcases bs with _ | ⟨b, bs'⟩
      · exact absurd rfl hbs
      · simp [List.flatten_cons, List.length_append]
  have hcounts : accumulate chunks.flatten (fun _ => 0)
      = fun j => if j = c then chunks.flatten.length else 0 := by
    funext j
    rw [accumulate_apply _ _ _ hbytes]
    by_cases hjc : j = c
    · rw [if_pos hjc, Nat.zero_add]
      subst hjc
      rw [List.count_eq_length]
      intro b hb
      simp [hall b hb]
    · rw [if_neg hjc, Nat.zero_add, List.count_eq_zero]
      intro hmem
      exact hjc (hall j hmem)
  have hrl := runLoop_chunks chunks (fun _ => 0) 0 [] hne'
  simp only [run, hrl, List.nil_append, zero_add, hcounts,
    computeEntropy_single c chunks.flatten.length hLpos]

/-- Closed witness for C7: the spec's scenario S1, a single byte 0x41. -/
theorem constant_file_entropy_zero_witness :
    (65 : Nat) < 256 ∧ ([[65]] : List (List Nat)) ≠ [] ∧
    (∀ bs ∈ ([[65]] : List (List Nat)), bs ≠ [] ∧ ∀ b ∈ bs, b = 65) ∧
    run (some { id := 1, reads := ([[65]] : List (List Nat)).map ReadResult.chunk,
                post := PostBehavior.succeeds })
      = { status := Status.OK, posted := [entropyAttribute 0], log := [],
          calls := List.replicate (([[65]] : List (List Nat)).length + 1)
              (MethodCall.read FILE_BUFFER_SIZE)
            ++ [MethodCall.addGenInfoAttribute] } :=
  ⟨by decide, by decide, by decide,
   constant_file_entropy_zero 1 65 [[65]] (by decide) (by decide) (by decide)⟩

/-- C8: permuting the file's bytes (and re-chunking them arbitrarily)
does not change the computed entropy: the two runs post equal attribute
lists and both return OK.  The entropy values are equal exactly, which
is stronger than the claim's "within tolerance". -/
theorem permutation_invariance (id1 id2 : Int) (cs1 cs2 : List (List Nat))
    (h1 : ∀ bs ∈ cs1, bs ≠ [] ∧ ∀ b ∈ bs, b < 256)
    (h2 : ∀ bs ∈ cs2, bs ≠ [] ∧ ∀ b ∈ bs, b < 256)
    (_hlen : 1 ≤ cs1.flatten.length)
    (hperm : cs1.flatten.Perm cs2.flatten) :
    (run (some { id := id1, reads := cs1.map ReadResult.chunk, post := PostBehavior.succeeds })).posted
      = (run (some { id := id2, reads := cs2.map ReadResult.chunk, post := PostBehavior.succeeds })).posted
    ∧ (run (some { id := id1, reads := cs1.map ReadResult.chunk, post := PostBehavior.succeeds })).status
      = Status.OK
    ∧ (run (some { id := id2, reads := cs2.map ReadResult.chunk, post := PostBehavior.succeeds })).status
      = Status.OK := by
  have hne1 : ∀ bs ∈ cs1, bs ≠ [] := fun bs hbs => (h1 bs hbs).1
  have hne2 : ∀ bs ∈ cs2, bs ≠ [] := fun bs hbs => (h2 bs hbs).1
  have hb1 : ∀ b ∈ cs1.flatten, b < 256 := by
    intro b hb
    rcases List.mem_flatten.mp hb with ⟨bs, hbs, hb'⟩
    exact (h1 bs hbs).2 b hb'
  have hb2 : ∀ b ∈ cs2.flatten, b < 256 := by
    intro b hb
    rcases List.mem_flatten.mp hb with ⟨bs, hbs, hb'⟩
    exact (h2 bs hbs).2 b hb'
  have hcounts : accumulate cs1.flatten (fun _ => 0)
      = accumulate cs2.flatten (fun _ => 0) := by
    funext j
    rw [accumulate_apply _ _ _ hb1, accumulate_apply _ _ _ hb2, hperm.count_eq j]
  have htot : (cs1.flatten.length : Int) = (cs2.flatten.length : Int) := by
    exact_mod_cast hperm.length_eq
  have hrl1 := runLoop_chunks cs1 (fun _ => 0) 0 [] hne1
  have hrl2 := runLoop_chunks cs2 (fun _ => 0) 0 [] hne2
  refine ⟨?_, ?_, ?_⟩ <;>
    simp only [run, hrl1, hrl2, List.nil_append, zero_add, hcounts, htot]

/-- Closed witness for C8: "AB" against "BA". -/
theorem permutation_invariance_witness :
    (∀ bs ∈ ([[65, 66]] : List (List Nat)), bs ≠ [] ∧ ∀ b ∈ bs, b < 256) ∧
    (∀ bs ∈ ([[66], [65]] : List (List Nat)), bs ≠ [] ∧ ∀ b ∈ bs, b < 256) ∧
    1 ≤ ([[65, 66]] : List (List Nat)).flatten.length ∧
    ([[65, 66]] : List (List Nat)).flatten.Perm ([[66], [65]] : List (List Nat)).flatten ∧
    ((run (some { id := 1, reads := ([[65, 66]] : List (List Nat)).map ReadResult.chunk, post := PostBehavior.succeeds })).posted
      = (run (some { id := 2, reads := ([[66], [65]] : List (List Nat)).map ReadResult.chunk, post := PostBehavior.succeeds })).posted
    ∧ (run (some { id := 1, reads := ([[65, 66]] : List (List Nat)).map ReadResult.chunk, post := PostBehavior.succeeds })).status
      = Status.OK
    ∧ (run (some { id := 2, reads := ([[66], [65]] : List (List Nat)).map ReadResult.chunk, post := PostBehavior.succeeds })).status
      = Status.OK) :=
  ⟨by decide, by decide, by decide, by decide,
   permutation_invariance 1 2 [[65, 66]] [[66], [65]]
     (by decide) (by decide) (by decide) (by decide)⟩

/-- C9: a `TskException` or a `std::exception` thrown by `read` (after any
number of chunks) or by `addGenInfoAttribute` is caught by the handlers:
the run returns FAIL, posts no attribute, and logs exactly one message
carrying the file id and the exception message. -/
theorem exception_handling (id : Int) (pre : List (List Nat)) (m : String)
    (rest : List ReadResult) (pb : PostBehavior) (hpre : ∀ bs ∈ pre, bs ≠ []) :
    (run (some { id := id,
                 reads := pre.map ReadResult.chunk ++ ReadResult.tskThrow m :: rest,
                 post := pb })
      = { status := Status.FAIL, posted := [], log := [LogMsg.errorProcessing id m],
          calls := (List.replicate pre.length (MethodCall.read FILE_BUFFER_SIZE)
            ++ [MethodCall.read FILE_BUFFER_SIZE]) ++ [MethodCall.getId] })
    ∧ (run (some { id := id,
                   reads := pre.map ReadResult.chunk ++ ReadResult.stdThrow m :: rest,
                   post := pb })
      = { status := Status.FAIL, posted := [], log := [LogMsg.errorProcessing id m],
          calls := (List.replicate pre.length (MethodCall.read FILE_BUFFER_SIZE)
            ++ [MethodCall.read FILE_BUFFER_SIZE]) ++ [MethodCall.getId] })
    ∧ (run (some { id := id, reads := pre.map ReadResult.chunk,
                   post := PostBehavior.tskThrow m })
      = { status := Status.FAIL, posted := [], log := [LogMsg.errorProcessing id m],
          calls := List.replicate (pre.length + 1) (MethodCall.read FILE_BUFFER_SIZE)
            ++ [MethodCall.addGenInfoAttribute, MethodCall.getId] })
    ∧ (run (some { id := id, reads := pre.map ReadResult.chunk,
                   post := PostBehavior.stdThrow m })
      = { status := Status.FAIL, posted := [], log := [LogMsg.errorProcessing id m],
          calls := List.replicate (pre.length + 1) (MethodCall.read FILE_BUFFER_SIZE)
            ++ [MethodCall.addGenInfoAttribute, MethodCall.getId] }) := by
  have hT := runLoop_append_chunks pre (ReadResult.tskThrow m :: rest) (fun _ => 0) 0 [] hpre
  have hS := runLoop_append_chunks pre (ReadResult.stdThrow m :: rest) (fun _ => 0) 0 [] hpre
  have hC := runLoop_chunks pre (fun _ => 0) 0 [] hpre
  simp only [runLoop, List.nil_append] at hT hS
  refine ⟨?_, ?_, ?_, ?_⟩ <;> simp [run, hT, hS, hC]

/-- Closed witness for C9: one 1-byte chunk, then a throwing read. -/
theorem exception_handling_witness :
    (∀ bs ∈ ([[65]] : List (List Nat)), bs ≠ []) ∧
    run (some { id := 3,
                reads := ([[65]] : List (List Nat)).map ReadResult.chunk
                  ++ ReadResult.tskThrow "boom" :: [],
                post := PostBehavior.succeeds })
      = { status := Status.FAIL, posted := [], log := [LogMsg.errorProcessing 3 "boom"],
          calls := (List.replicate ([[65]] : List (List Nat)).length
              (MethodCall.read FILE_BUFFER_SIZE)
            ++ [MethodCall.read FILE_BUFFER_SIZE]) ++ [MethodCall.getId] } :=
  ⟨by decide,
   (exception_handling 3 [[65]] "boom" [] PostBehavior.succeeds (by decide)).1⟩

/-- Lower bound for the reducer: every retained term has `0 < p ≤ 1`, so
`log p ≤ 0` and the subtracted quantity is nonpositive. -/
theorem computeEntropy_nonneg (counts : Nat → Nat) (L : Nat) (hL : 1 ≤ L)
    (hsum : ∑ i ∈ Finset.range 256, counts i = L) :
    0 ≤ computeEntropy counts (L : Int) := by
  have hLpos : (0:ℝ) < (L : ℝ) := by
    exact_mod_cast Nat.lt_of_lt_of_le Nat.zero_lt_one hL
  have hlog2 : (0:ℝ) < Real.log 2 := Real.log_pos (by norm_num)
  simp only [computeEntropy, Int.cast_natCast]
  apply Finset.sum_nonneg
  intro i hi
  by_cases hp : 0 < ((counts i : ℝ) / (L : ℝ))
  · rw [if_pos hp]
    have hci_le : counts i ≤ L :=
      hsum ▸ Finset.single_le_sum (fun j _ => Nat.zero_le (counts j)) hi
    have hle1 : (counts i : ℝ) / (L : ℝ) ≤ 1 := by
      rw [div_le_one hLpos]
      exact_mod_cast hci_le
    have hlog : Real.log ((counts i : ℝ) / (L : ℝ)) ≤ 0 := Real.log_nonpos hp.le hle1
    have hterm : (counts i : ℝ) / (L : ℝ)
        * (Real.log ((counts i : ℝ) / (L : ℝ)) / Real.log 2) ≤ 0 :=
      mul_nonpos_of_nonneg_of_nonpos hp.le
        (div_nonpos_of_nonpos_of_nonneg hlog hlog2.le)
    linarith
  · rw [if_neg hp]

/-- Upper bound for the reducer (Gibbs/Jensen): on a histogram of 256
bins summing to `L ≥ 1`, the entropy is at most `log₂` of the support
size, hence at most `log₂ (min L 256)`. -/
theorem computeEntropy_le (counts : Nat → Nat) (L : Nat) (hL : 1 ≤ L)
    (hsum : ∑ i ∈ Finset.range 256, counts i = L) :
    computeEntropy counts (L : Int)
      ≤ Real.log ((min L 256 : Nat) : ℝ) / Real.log 2 := by
  have hLpos : (0:ℝ) < (L : ℝ) := by
    exact_mod_cast Nat.lt_of_lt_of_le Nat.zero_lt_one hL
  have hLne : (L : ℝ) ≠ 0 := ne_of_gt hLpos
  have hlog2 : (0:ℝ) < Real.log 2 := Real.log_pos (by norm_num)
  set S : Finset Nat := (Finset.range 256).filter (fun i => 0 < counts i) with hSdef
  have hmemS : ∀ i ∈ S, 0 < counts i := fun i hi => (Finset.mem_filter.mp hi).2
  have hsumS : ∑ i ∈ S, counts i = L := by
    rw [hSdef, Finset.sum_filter_of_ne]
    · exact hsum
    · intro i _ hne
      exact Nat.pos_of_ne_zero hne
  have hsumSR : ∑ i ∈ S, (counts i : ℝ) = (L : ℝ) := by
    rw [← Nat.cast_sum, hsumS]
  have hcast : computeEntropy counts (L : Int)
      = ∑ i ∈ Finset.range 256,
          (if 0 < ((counts i : ℝ) / (L : ℝ)) then
            -(((counts i : ℝ) / (L : ℝ))
              * (Real.log ((counts i : ℝ) / (L : ℝ)) / Real.log 2))
          else 0) := by
    simp only [computeEntropy, Int.cast_natCast]
  have hES : (∑ i ∈ Finset.range 256,
        (if 0 < ((counts i : ℝ) / (L : ℝ)) then
          -(((counts i : ℝ) / (L : ℝ))
            * (Real.log ((counts i : ℝ) / (L : ℝ)) / Real.log 2))
        else 0))
      = ∑ i ∈ S, ((counts i : ℝ) / (L : ℝ))
          * Real.log (((counts i : ℝ) / (L : ℝ))⁻¹) / Real.log 2 := by
    rw [hSdef, Finset.sum_filter]
    apply Finset.sum_congr rfl
    intro i _
    rcases Nat.eq_zero_or_pos (counts i) with h0 | hpos
    · rw [h0]
      norm_num
    · have hpR : 0 < (counts i : ℝ) / (L : ℝ) :=
        div_pos (by exact_mod_cast hpos) hLpos
      rw [if_pos hpR, if_pos hpos, Real.log_inv]
      ring
  have hw0 : ∀ i ∈ S, (0:ℝ) ≤ (counts i : ℝ) / (L : ℝ) := by
    intro i _
    exact div_nonneg (Nat.cast_nonneg (counts i)) hLpos.le
  have hw1 : ∑ i ∈ S, (counts i : ℝ) / (L : ℝ) = 1 := by
    rw [← Finset.sum_div, hsumSR, div_self hLne]
  have hxmem : ∀ i ∈ S, ((counts i : ℝ) / (L : ℝ))⁻¹ ∈ Set.Ioi (0:ℝ) := by
    intro i hi
    have hpR : 0 < (counts i : ℝ) / (L : ℝ) :=
      div_pos (by exact_mod_cast hmemS i hi) hLpos
    exact Set.mem_Ioi.mpr (inv_pos.mpr hpR)
  have hjen := (strictConcaveOn_log_Ioi.concaveOn).le_map_sum hw0 hw1 hxmem
  simp only [smul_eq_mul] at hjen
  have hsum_inv : ∑ i ∈ S, ((counts i : ℝ) / (L : ℝ)) * ((counts i : ℝ) / (L : ℝ))⁻¹
      = (S.card : ℝ) := by
    rw [Finset.sum_congr rfl (fun i hi => mul_inv_cancel₀
      (ne_of_gt (div_pos (by exact_mod_cast hmemS i hi) hLpos)))]
    simp
  rw [hsum_inv] at hjen
  have hcard256 : S.card ≤ 256 := by
    have hle := Finset.card_filter_le (Finset.range 256) (fun i => 0 < counts i)
    simpa using hle
  have hcardL : S.card ≤ L := by
    calc S.card = ∑ _i ∈ S, 1 := by simp
      _ ≤ ∑ i ∈ S, counts i := Finset.sum_le_sum (fun i hi => hmemS i hi)
      _ = L := hsumS
  have hcard_pos : 0 < S.card := by
    rcases Nat.eq_zero_or_pos S.card with h0 | hpos
    · exfalso
      have hempty : S = ∅ := Finset.card_eq_zero.mp h0
      rw [hempty, Finset.sum_empty] at hsumS
      omega
    · exact hpos
  have hclog : Real.log (S.card : ℝ) ≤ Real.log ((min L 256 : Nat) : ℝ) := by
    apply Real.log_le_log (by exact_mod_cast hcard_pos)
    exact_mod_cast le_min hcardL hcard256
  calc computeEntropy counts (L : Int)
      = ∑ i ∈ S, ((counts i : ℝ) / (L : ℝ))
          * Real.log (((counts i : ℝ) / (L : ℝ))⁻¹) / Real.log 2 := by
        rw [hcast, hES]
    _ = (∑ i ∈ S, ((counts i : ℝ) / (L : ℝ))
          * Real.log (((counts i : ℝ) / (L : ℝ))⁻¹)) / Real.log 2 := by
        rw [Finset.sum_div]
    _ ≤ Real.log (S.card : ℝ) / Real.log 2 :=
        (div_le_div_iff_of_pos_right hlog2).mpr hjen
    _ ≤ Real.log ((min L 256 : Nat) : ℝ) / Real.log 2 :=
        (div_le_div_iff_of_pos_right hlog2).mpr hclog

/-- A non-empty list of non-empty chunks flattens to at least one byte. -/
theorem flatten_length_pos (chunks : List (List Nat)) (hne : chunks ≠ [])
    (hne' : ∀ bs ∈ chunks, bs ≠ []) : 1 ≤ chunks.flatten.length := by
  rcases chunks with _ | ⟨bs, rest⟩
  · exact absurd rfl hne
  · have hbs : bs ≠ [] := hne' bs (List.mem_cons_self bs rest)
    rcases bs with _ | ⟨b, bs'⟩
    · exact absurd rfl hbs
    · simp [List.flatten_cons, List.length_append]

/-- C10: on a file of length L ≥ 1 (any chunking), the run posts the
entropy of the file's byte histogram, and that entropy E satisfies
0 ≤ E ≤ log₂(min(L,256)) exactly (so the claim's ε-tolerance holds with
room to spare); in particular E ≤ 8. -/
theorem entropy_bounds (id : Int) (chunks : List (List Nat))
    (hchunks : ∀ bs ∈ chunks, bs ≠ [] ∧ ∀ b ∈ bs, b < 256)
    (hne : chunks ≠ []) :
    (run (some { id := id, reads := chunks.map ReadResult.chunk, post := PostBehavior.succeeds })).posted
      = [entropyAttribute (computeEntropy (fun j => chunks.flatten.count j)
          (chunks.flatten.length : Int))]
    ∧ 0 ≤ computeEntropy (fun j => chunks.flatten.count j) (chunks.flatten.length : Int)
    ∧ computeEntropy (fun j => chunks.flatten.count j) (chunks.flatten.length : Int)
        ≤ Real.log ((min chunks.flatten.length 256 : Nat) : ℝ) / Real.log 2
    ∧ computeEntropy (fun j => chunks.flatten.count j) (chunks.flatten.length : Int) ≤ 8 := by
  have hne' : ∀ bs ∈ chunks, bs ≠ [] := fun bs hbs => (hchunks bs hbs).1
  have hbytes : ∀ b ∈ chunks.flatten, b < 256 := by
    intro b hb
    rcases List.mem_flatten.mp hb with ⟨bs, hbs, hb'⟩
    exact (hchunks bs hbs).2 b hb'
  have hL : 1 ≤ chunks.flatten.length := flatten_length_pos chunks hne hne'
  have hsum : ∑ i ∈ Finset.range 256, chunks.flatten.count i = chunks.flatten.length :=
    sum_range_count chunks.flatten hbytes
  have hlog2 : (0:ℝ) < Real.log 2 := Real.log_pos (by norm_num)
  have hposted : (run (some { id := id, reads := chunks.map ReadResult.chunk, post := PostBehavior.succeeds })).posted
      = [entropyAttribute (computeEntropy (fun j => chunks.flatten.count j)
          (chunks.flatten.length : Int))] := by
    have hcounts : accumulate chunks.flatten (fun _ => 0)
        = fun j => chunks.flatten.count j := by
      funext j
      rw [accumulate_apply _ _ _ hbytes, Nat.zero_add]
    have hrl := runLoop_chunks chunks (fun _ => 0) 0 [] hne'
    simp only [run, hrl, List.nil_append, zero_add, hcounts]
  have hnonneg := computeEntropy_nonneg (fun j => chunks.flatten.count j)
    chunks.flatten.length hL hsum
  have hupper := computeEntropy_le (fun j => chunks.flatten.count j)
    chunks.flatten.length hL hsum
  have hmin1 : 1 ≤ min chunks.flatten.length 256 := le_min hL (by norm_num)
  have h8 : Real.log ((min chunks.flatten.length 256 : Nat) : ℝ) / Real.log 2 ≤ 8 := by
    have hle256 : ((min chunks.flatten.length 256 : Nat) : ℝ) ≤ (256 : ℝ) := by
      exact_mod_cast min_le_right chunks.flatten.length 256
    have hpos : (0:ℝ) < ((min chunks.flatten.length 256 : Nat) : ℝ) := by
      exact_mod_cast Nat.lt_of_lt_of_le Nat.zero_lt_one hmin1
    have hlogle : Real.log ((min chunks.flatten.length 256 : Nat) : ℝ)
        ≤ Real.log (256 : ℝ) := Real.log_le_log hpos hle256
    have hl256 : Real.log (256 : ℝ) = 8 * Real.log 2 := by
      rw [show (256:ℝ) = 2 ^ (8:ℕ) by norm_num, Real.log_pow]
      norm_num
    calc Real.log ((min chunks.flatten.length 256 : Nat) : ℝ) / Real.log 2
        ≤ (8 * Real.log 2) / Real.log 2 := by
          apply (div_le_div_iff_of_pos_right hlog2).mpr
          rw [← hl256]
          exact hlogle
      _ = 8 := by
          rw [mul_div_assoc, div_self (ne_of_gt hlog2), mul_one]
  exact ⟨hposted, hnonneg, hupper, le_trans hupper h8⟩

/-- Closed witness for C10, at the two-byte file "AB". -/
theorem entropy_bounds_witness :
    (∀ bs ∈ ([[65, 66]] : List (List Nat)), bs ≠ [] ∧ ∀ b ∈ bs, b < 256) ∧
    ([[65, 66]] : List (List Nat)) ≠ [] ∧
    ((run (some { id := 4, reads := ([[65, 66]] : List (List Nat)).map ReadResult.chunk, post := PostBehavior.succeeds })).posted
      = [entropyAttribute (computeEntropy
          (fun j => ([[65, 66]] : List (List Nat)).flatten.count j)
          (([[65, 66]] : List (List Nat)).flatten.length : Int))]
    ∧ 0 ≤ computeEntropy (fun j => ([[65, 66]] : List (List Nat)).flatten.count j)
        (([[65, 66]] : List (List Nat)).flatten.length : Int)
    ∧ computeEntropy (fun j => ([[65, 66]] : List (List Nat)).flatten.count j)
          (([[65, 66]] : List (List Nat)).flatten.length : Int)
        ≤ Real.log ((min ([[65, 66]] : List (List Nat)).flatten.length 256 : Nat) : ℝ)
          / Real.log 2
    ∧ computeEntropy (fun j => ([[65, 66]] : List (List Nat)).flatten.count j)
        (([[65, 66]] : List (List Nat)).flatten.length : Int) ≤ 8) :=
  ⟨by decide, by decide, entropy_bounds 4 [[65, 66]] (by decide) (by decide)⟩

end EntropyModule
